import Mathlib

/-!
Shallow embedding of the two scripts of the repository
(download_aozora_zip.py and aozora_unzip_utf8.py).

Python strings are modelled as `List Char` (sequences of code points),
byte strings as `List Nat` (each entry a byte value), filesystem paths as
lists of path components, and a filesystem as a partial map from resolved
paths to file contents.  The external codec library is modelled as an
abstract parameter (a partial decoding function per encoding name); the
UTF-8 codec, whose behaviour the scripts rely on, is implemented
concretely below.  The model has no symbolic links, so `Path.resolve`
is the purely lexical normalisation of `.` and `..` components.
-/

namespace Aozora

/-! ## Python string primitives -/

/-- Characters replaced by the regex character class in safe_folder_name,
from `re.sub(r"[\\/:*?\"<>|]+", "_", name)`. -/
def forbiddenChar (c : Char) : Bool :=
  c = '\\' ∨ c = '/' ∨ c = ':' ∨ c = '*' ∨ c = '?' ∨ c = '"' ∨ c = '<' ∨ c = '>' ∨ c = '|'

/-- Whitespace characters stripped by Python str.strip() (ASCII range). -/
def pySpace (c : Char) : Bool :=
  c = ' ' ∨ c = '\t' ∨ c = '\n' ∨ c = '\x0b' ∨ c = '\x0c' ∨ c = '\r'

/-- Python s.strip(chars): remove characters satisfying p from both ends. -/
def pyStrip (p : Char → Bool) (s : List Char) : List Char :=
  ((s.dropWhile p).reverse.dropWhile p).reverse

/-- Scan of `re.sub(r"[\\/:*?\"<>|]+", "_", name)`: the regex engine walks the
string left to right; a match greedily consumes a maximal run of class
characters and is replaced by one underscore.  The flag records whether the
scan is inside such a run (in which case further class characters are part of
the already-replaced match and produce no output). -/
def reSubRunsGo (inRun : Bool) : List Char → List Char
  | [] => []
  | c :: cs =>
    if forbiddenChar c then
      if inRun then reSubRunsGo true cs else '_' :: reSubRunsGo true cs
    else c :: reSubRunsGo false cs

/-- Result of `re.sub(r"[\\/:*?\"<>|]+", "_", name)`. -/
def reSubRuns (s : List Char) : List Char :=
  reSubRunsGo false s

/-- Source function safe_folder_name: regex substitution of runs of the
forbidden characters by "_", then .strip() of whitespace, then .strip(".")
of dots, with fallback "zip" when the result is empty. -/
def safe_folder_name (name : List Char) : List Char :=
  let n1 := reSubRuns name
  let n2 := pyStrip (fun c => c = '.') (pyStrip pySpace n1)
  if n2 = [] then "zip".toList else n2

/-! ## The UTF-8 codec

Python's strict "utf-8" codec (used by bytes.decode("utf-8") and by
Path.write_text(..., encoding="utf-8")): code points are Unicode scalar
values (below 0x110000 and not surrogates), the decoder rejects overlong
forms, surrogates and values above U+10FFFF.  Bytes are `Nat` values. -/

/-- A Unicode scalar value: what Python str characters hold and what the
strict UTF-8 codec accepts. -/
def isScalar (c : Nat) : Bool :=
  c < 0x110000 ∧ ¬ (0xD800 ≤ c ∧ c ≤ 0xDFFF)

/-- UTF-8 encoding of a single scalar value. -/
def utf8EncodeChar (c : Nat) : List Nat :=
  if c < 0x80 then [c]
  else if c < 0x800 then [0xC0 + c / 0x40, 0x80 + c % 0x40]
  else if c < 0x10000 then
    [0xE0 + c / 0x1000, 0x80 + (c / 0x40) % 0x40, 0x80 + c % 0x40]
  else
    [0xF0 + c / 0x40000, 0x80 + (c / 0x1000) % 0x40, 0x80 + (c / 0x40) % 0x40,
      0x80 + c % 0x40]

/-- UTF-8 encoding of a string of scalar values (no byte-order mark is
emitted, matching Python's "utf-8" codec as opposed to "utf-8-sig"). -/
def utf8Encode (t : List Nat) : List Nat :=
  t.flatMap utf8EncodeChar

/-- Byte-at-a-time strict UTF-8 decoding automaton (the WHATWG decoder that
Python's strict codec implements).  The accumulator holds the partial code
point of the current multi-byte sequence; the pending list holds the
inclusive (low, high) admissible range of each remaining continuation byte
(the first range varies with the leading byte, excluding overlong forms,
surrogates and values above U+10FFFF). -/
def utf8Run (acc : Nat) : List (Nat × Nat) → List Nat → Option (List Nat)
  | [], [] => some []
  | _ :: _, [] => none
  | [], b :: bs =>
    if b < 0x80 then (utf8Run 0 [] bs).map (fun t => b :: t)
    else if b < 0xC2 then none
    else if b < 0xE0 then utf8Run (b - 0xC0) [(0x80, 0xBF)] bs
    else if b < 0xF0 then
      utf8Run (b - 0xE0)
        [(if b = 0xE0 then 0xA0 else 0x80, if b = 0xED then 0x9F else 0xBF), (0x80, 0xBF)] bs
    else if b < 0xF5 then
      utf8Run (b - 0xF0)
        [(if b = 0xF0 then 0x90 else 0x80, if b = 0xF4 then 0x8F else 0xBF),
          (0x80, 0xBF), (0x80, 0xBF)] bs
    else none
  | (lo, hi) :: ps, b :: bs =>
    if lo ≤ b ∧ b ≤ hi then
      cond ps.isEmpty
        ((utf8Run 0 [] bs).map (fun t => (acc * 0x40 + (b - 0x80)) :: t))
        (utf8Run (acc * 0x40 + (b - 0x80)) ps bs)
    else none

/-- Strict UTF-8 decoding: some decoded code-point list, or none on any
ill-formed input, exactly as Python's bytes.decode("utf-8") succeeds or
raises UnicodeDecodeError. -/
def utf8Decode (data : List Nat) : Option (List Nat) :=
  utf8Run 0 [] data

/-- A byte string is valid UTF-8 when strict decoding succeeds. -/
def isValidUtf8 (data : List Nat) : Bool :=
  (utf8Decode data).isSome

/-! ## The Encoding Normalizer (convert_text_file_in_place and helpers)

The legacy Japanese codecs (cp932 and friends) live in Python's codec
library, an external collaborator; they are modelled as an abstract
parameter: a partial function from an encoding name and a byte string to
the decoded code-point string, `none` meaning UnicodeDecodeError. -/

/-- An external codec table: bytes.decode(enc) returns some decoded text or
fails (none). -/
def Codec : Type :=
  List Char → List Nat → Option (List Nat)

/-- Recognized text/markup extensions, from TEXT_EXTS in the source. -/
def TEXT_EXTS : List (List Char) :=
  [".txt".toList, ".htm".toList, ".html".toList]

/-- Fixed ordered list of legacy encodings, from ENCODING_CANDIDATES in the
source. -/
def ENCODING_CANDIDATES : List (List Char) :=
  ["cp932".toList, "shift_jis".toList, "shift_jisx0213".toList, "shift_jis_2004".toList]

/-- Source function is_probably_binary: presence of a null byte. -/
def is_probably_binary (data : List Nat) : Bool :=
  data.contains 0

/-- Loop of decode_shift_jis_family over the candidate encodings: return the
first decode that succeeds together with its encoding name. -/
def tryCandidates (codecs : Codec) (data : List Nat) :
    List (List Char) → Option (List Nat) × Option (List Char)
  | [] => (none, none)
  | enc :: rest =>
    match codecs enc data with
    | some text => (some text, some enc)
    | none => tryCandidates codecs data rest

/-- Source function decode_shift_jis_family: reject data holding a null
byte, else try the candidate encodings in order. -/
def decode_shift_jis_family (codecs : Codec) (data : List Nat) :
    Option (List Nat) × Option (List Char) :=
  if is_probably_binary data then (none, none)
  else tryCandidates codecs data ENCODING_CANDIDATES

/-- Index of the last occurrence of a character in a string, if any
(Python str.rfind). -/
def rfindIdx (c : Char) (s : List Char) : Option Nat :=
  match s.reverse.findIdx? (fun x => x = c) with
  | none => none
  | some j => some (s.length - 1 - j)

/-- Python pathlib suffix of a file name: the part from the last dot on,
when that dot is neither the first nor the last character. -/
def pathSuffix (name : List Char) : List Char :=
  match rfindIdx '.' name with
  | none => []
  | some i => if 0 < i ∧ i < name.length - 1 then name.drop i else []

/-- Bytes produced by Path.write_text(text, encoding="utf-8", newline="\n"):
with newline="\n" the text-mode newline translation maps "\n" to "\n", i.e.
it is the identity, so the written bytes are exactly the UTF-8 encoding of
the text (and no byte-order mark is emitted). -/
def write_text_utf8_lf (text : List Nat) : List Nat :=
  utf8Encode text

/-- Source function convert_text_file_in_place, as a pure function from the
file name and the bytes read to (encoding reported, bytes on disk after the
call).  A none report leaves the bytes as read; a some report rewrites the
file with write_text_utf8_lf. -/
def convert_text_file_in_place (codecs : Codec) (fname : List Char) (data : List Nat) :
    Option (List Char) × List Nat :=
  let ext := (pathSuffix fname).map Char.toLower
  if ext ∈ TEXT_EXTS then
    if isValidUtf8 data then (none, data)
    else
      match decode_shift_jis_family codecs data with
      | (some text, some enc) => (some enc, write_text_utf8_lf text)
      | _ => (none, data)
  else (none, data)

/-- Toy codec table for concrete evaluations: cp932 decodes the single byte
pair 0x82 0xA0 to HIRAGANA LETTER A. -/
def toyCodec : Codec :=
  fun enc data =>
    if enc = "cp932".toList then
      if data = [0x82, 0xA0] then some [0x3042] else none
    else none

/-- The sanitizer as the claim words it (each forbidden character replaced
by an underscore, then all leading and trailing whitespace and dots
stripped, with the fixed fallback); kept for comparison with the source
function safe_folder_name. -/
def safe_folder_name_claimed (name : List Char) : List Char :=
  let n1 := name.map (fun c => if forbiddenChar c then '_' else c)
  let n2 := pyStrip (fun c => pySpace c ∨ c = '.') n1
  if n2 = [] then "zip".toList else n2

/-- Replacement of each maximal run of forbidden characters by a single
underscore, formulated by consuming the whole run at each replacement. -/
def collapseRuns (s : List Char) : List Char :=
  match s with
  | [] => []
  | c :: cs =>
    if forbiddenChar c then '_' :: collapseRuns (cs.dropWhile forbiddenChar)
    else c :: collapseRuns cs
termination_by s.length
decreasing_by
  · simp only [List.length_cons]
    exact Nat.lt_succ_of_le (List.dropWhile_sublist forbiddenChar).length_le
  · simp

/-- The sanitizer as amended: each maximal run of forbidden characters
becomes one underscore, whitespace is stripped from both ends, then dots
are stripped from both ends of that result, with the fixed fallback. -/
def safe_folder_name_amended (name : List Char) : List Char :=
  let n2 := pyStrip (fun c => c = '.') (pyStrip pySpace (collapseRuns name))
  if n2 = [] then "zip".toList else n2

/-! ## The Archive Fetcher (download_aozora_zip.py)

URLs, titles and file names are `List Char`.  The network is an external
collaborator, modelled for download_file as a function from a URL to the
chunk stream of the response body. -/

/-- Global deduplication of (title, zip_url) pairs by exact URL, first
occurrence winning, preserving first-seen order: the seen_zip set loop of
main. -/
def dedupByUrl (seen : List (List Char)) :
    List (List Char × List Char) → List (List Char × List Char)
  | [] => []
  | (t, z) :: rest =>
    if z ∈ seen then dedupByUrl seen rest
    else (t, z) :: dedupByUrl (z :: seen) rest

/-- Decimal digit string of a natural number (what str and the d format
specifier produce). -/
def decimalDigits (k : Nat) : List Char :=
  Nat.toDigits 10 k

/-- Python format f"{k:0{width}d}": the decimal of k left-padded with zeros
to the width (never truncated). -/
def pyFormatZeroPad (width k : Nat) : List Char :=
  List.replicate (width - (decimalDigits k).length) '0' ++ decimalDigits k

/-- The naming loop of main: enumerate(unique_zips, start=fileId), giving
each entry the zero-padded decimal name with the fixed .zip extension. -/
def enumeratePlan (width fileId : Nat) :
    List (List Char × List Char) → List (List Char × List Char)
  | [] => []
  | (_t, z) :: rest =>
    (pyFormatZeroPad width fileId ++ ".zip".toList, z) :: enumeratePlan width (fileId + 1) rest

/-- Main's assignment of output names to archive URLs: deduplicate globally,
set width = max(6, digit count of the total), then name sequentially from
000001. -/
def downloadPlan (pairs : List (List Char × List Char)) : List (List Char × List Char) :=
  let uz := dedupByUrl [] pairs
  enumeratePlan (max 6 (decimalDigits uz.length).length) 1 uz

/-- A flat filesystem for the Fetcher output directory: file name to
contents. -/
def FileSystem : Type :=
  List Char → Option (List Nat)

/-- Primitive filesystem operations performed by download_file. -/
inductive FsOp : Type
  | createFile (p : List Char)
  | appendChunk (p : List Char) (chunk : List Nat)
  | renamePath (src dst : List Char)

/-- Effect of one operation: open(p, "wb") creates or truncates p,
f.write appends a chunk to p, and Path.replace atomically moves src over
dst. -/
def applyOp (fs : FileSystem) : FsOp → FileSystem
  | FsOp.createFile p => fun q => if q = p then some [] else fs q
  | FsOp.appendChunk p chunk => fun q => if q = p then some ((fs p).getD [] ++ chunk) else fs q
  | FsOp.renamePath src dst =>
    fun q => if q = dst then fs src else if q = src then none else fs q

/-- Apply a list of operations in order. -/
def applyOps (fs : FileSystem) (ops : List FsOp) : FileSystem :=
  ops.foldl applyOp fs

/-- The temporary sibling name out_path.with_suffix(out_path.suffix +
".part"): the old suffix is replaced by itself plus .part, so the effect is
appending .part to the name. -/
def tmpName (dest : List Char) : List Char :=
  dest ++ ".part".toList

/-- Filesystem trace of the download body of download_file: open the
temporary sibling, write each non-empty chunk of the response stream to it
(if chunk: guard), and only after the full body rename the temporary onto
the destination. -/
def downloadOps (dest : List Char) (chunks : List (List Nat)) : List FsOp :=
  FsOp.createFile (tmpName dest)
    :: (chunks.filter (fun c => ! c.isEmpty)).map (FsOp.appendChunk (tmpName dest))
    ++ [FsOp.renamePath (tmpName dest) dest]

/-- Source function download_file as a state transformer: the flag records
whether a network request (session.get) was performed.  When the destination
exists with non-zero size the function returns at once; otherwise it streams
the response body of the URL (given by the network collaborator) through
downloadOps. -/
def download_file (network : List Char → List (List Nat)) (fs : FileSystem)
    (url dest : List Char) : Bool × FileSystem :=
  match fs dest with
  | some b =>
    if 0 < b.length then (false, fs)
    else (true, applyOps fs (downloadOps dest (network url)))
  | none => (true, applyOps fs (downloadOps dest (network url)))

/-- The download loop of main over the named plan: run download_file on
each (url, destination) pair in order, counting network requests. -/
def runDownloads (network : List Char → List (List Nat)) (fs : FileSystem) :
    List (List Char × List Char) → Nat × FileSystem
  | [] => (0, fs)
  | (url, dest) :: rest =>
    let r := download_file network fs url dest
    let rr := runDownloads network r.2 rest
    (cond r.1 1 0 + rr.1, rr.2)

/-! ## The Archive Extractor (ensure_within_dir, extract_member, process_zip)

Paths are modelled as lists of components from the filesystem root; with no
symbolic links, Path.resolve is the lexical normalisation of "." and ".."
components.  The destination directory is given already resolved. -/

/-- An absolute filesystem path: its list of components from the root. -/
abbrev AbsPath : Type :=
  List (List Char)

/-- Splitting of a raw member name at "/" separators (the zip name
convention), keeping empty pieces. -/
def splitSlashGo (cur : List Char) : List Char → List (List Char)
  | [] => [cur.reverse]
  | c :: cs =>
    if c = '/' then cur.reverse :: splitSlashGo [] cs
    else splitSlashGo (c :: cur) cs

/-- Raw components of a member name. -/
def splitSlash (s : List Char) : List (List Char) :=
  splitSlashGo [] s

/-- Lexical resolution of raw components against an already-resolved
absolute base: "." and empty components vanish, ".." pops one component
(stopping at the root), anything else descends. -/
def resolveFrom (base : AbsPath) : List (List Char) → AbsPath
  | [] => base
  | c :: cs =>
    if c = [] ∨ c = ".".toList then resolveFrom base cs
    else if c = "..".toList then resolveFrom base.dropLast cs
    else resolveFrom (base ++ [c]) cs

/-- Resolved path of dest_dir / member.filename: a member name with a
leading slash is absolute and replaces the base, as Path division does. -/
def resolveTarget (destDir : AbsPath) (fname : List Char) : AbsPath :=
  match fname with
  | c :: _ =>
    if c = '/' then resolveFrom [] (splitSlash fname)
    else resolveFrom destDir (splitSlash fname)
  | [] => resolveFrom destDir (splitSlash fname)

/-- Rendering of an absolute path the way str(Path) does on POSIX. -/
def renderPath (p : AbsPath) : List Char :=
  '/' :: List.intercalate "/".toList p

/-- Source function ensure_within_dir on resolved paths: passes when
str(target) starts with str(base) + os.sep or target equals base; a failing
check raises ValueError. -/
def ensure_within_dir (base target : AbsPath) : Bool :=
  (renderPath base ++ "/".toList).isPrefixOf (renderPath target) || target == base

/-- One archive member: its stored name, whether it is a directory entry,
and its raw bytes. -/
structure ZipMember : Type where
  filename : List Char
  isDir : Bool
  content : List Nat

/-- A filesystem keyed by resolved absolute paths (regular files only;
directory creation does not touch this map). -/
abbrev DirFileSystem : Type :=
  AbsPath → Option (List Nat)

/-- Source function extract_member: compute the output path, run
ensure_within_dir (a failing check raises, modelled as Except.error),
create directories as needed, and for a file member copy the raw bytes to
the resolved output path.  Returns the extracted path. -/
def extract_member (destDir : AbsPath) (m : ZipMember) (fs : DirFileSystem) :
    Except Unit (DirFileSystem × AbsPath) :=
  let target := resolveTarget destDir m.filename
  if ensure_within_dir destDir target then
    if m.isDir then Except.ok (fs, target)
    else Except.ok (fun q => if q = target then some m.content else fs q, target)
  else Except.error ()

/-- Per-member body of the loop of process_zip: extract, and on success run
convert_text_file_in_place on an extracted regular file in place (the file
name passed to the suffix test is the last path component); an extraction
error is caught, reported, and the loop moves on. -/
def processMember (codecs : Codec) (destDir : AbsPath) (fs : DirFileSystem)
    (m : ZipMember) : DirFileSystem :=
  match extract_member destDir m fs with
  | Except.error _ => fs
  | Except.ok (fs1, p) =>
    if m.isDir then fs1
    else
      match fs1 p with
      | none => fs1
      | some dataRead =>
        fun q =>
          if q = p then
            some (convert_text_file_in_place codecs (p.getLast? |>.getD []) dataRead).2
          else fs1 q

/-- The member loop of process_zip over an archive's member list. -/
def processMembers (codecs : Codec) (destDir : AbsPath) (fs : DirFileSystem) :
    List ZipMember → DirFileSystem
  | [] => fs
  | m :: ms => processMembers codecs destDir (processMember codecs destDir fs m) ms

/-! ## Sanity checks and theorems -/

example : safe_folder_name "a\\b".toList = "a_b".toList := by decide

example : safe_folder_name "a\\\\b".toList = "a_b".toList := by decide

example : safe_folder_name "  .name. ".toList = "name".toList := by decide

example : safe_folder_name "...".toList = "zip".toList := by decide

example : safe_folder_name "x .".toList = "x ".toList := by decide

example : utf8Decode [0x61, 0xE3, 0x81, 0x82] = some [0x61, 0x3042] := by decide

example : utf8Decode [0x82, 0xA0] = none := by decide

example : utf8Decode [0xC0, 0x80] = none := by decide

example : utf8Decode [0xED, 0xA0, 0x80] = none := by decide

example : utf8Encode [0x3042] = [0xE3, 0x81, 0x82] := by decide

example : utf8Decode [0xF4, 0x8F, 0xBF, 0xBF] = some [0x10FFFF] := by decide

theorem utf8Run_encodeChar (c : Nat) (h : isScalar c = true) (rest : List Nat) :
    utf8Run 0 [] (utf8EncodeChar c ++ rest)
      = (utf8Run 0 [] rest).map (fun t => c :: t) := by
  simp only [isScalar, decide_eq_true_eq, Bool.and_eq_true, Bool.not_eq_true,
    decide_eq_false_iff_not, not_and, not_le] at h
  by_cases h1 : c < 0x80
  · simp only [utf8EncodeChar, if_pos h1, List.cons_append, List.nil_append, utf8Run,
      if_pos h1]
  · by_cases h2 : c < 0x800
    · have e1 : ¬ (0xC0 + c / 0x40 < 0x80) := by omega
      have e2 : ¬ (0xC0 + c / 0x40 < 0xC2) := by omega
      have e3 : 0xC0 + c / 0x40 < 0xE0 := by omega
      have e4 : 0x80 ≤ 0x80 + c % 0x40 ∧ 0x80 + c % 0x40 ≤ 0xBF := by omega
      have v : (0xC0 + c / 0x40 - 0xC0) * 0x40 + (0x80 + c % 0x40 - 0x80) = c := by omega
      simp only [utf8EncodeChar, if_neg h1, if_pos h2, List.cons_append, List.nil_append,
        utf8Run, if_neg e1, if_neg e2, if_pos e3, if_pos e4, List.isEmpty, cond_true, v]
    · by_cases h3 : c < 0x10000
      · have e1 : ¬ (0xE0 + c / 0x1000 < 0x80) := by omega
        have e2 : ¬ (0xE0 + c / 0x1000 < 0xC2) := by omega
        have e3 : ¬ (0xE0 + c / 0x1000 < 0xE0) := by omega
        have e4 : 0xE0 + c / 0x1000 < 0xF0 := by omega
        have e5 : (if (0xE0 + c / 0x1000 : Nat) = 0xE0 then (0xA0 : Nat) else 0x80)
              ≤ 0x80 + c / 0x40 % 0x40
            ∧ 0x80 + c / 0x40 % 0x40
              ≤ (if (0xE0 + c / 0x1000 : Nat) = 0xED then (0x9F : Nat) else 0xBF) := by
          refine ⟨?_, ?_⟩
          · split
            · omega
            · omega
          · split
            · omega
            · omega
        have e6 : 0x80 ≤ 0x80 + c % 0x40 ∧ 0x80 + c % 0x40 ≤ 0xBF := by omega
        have v : ((0xE0 + c / 0x1000 - 0xE0) * 0x40 + (0x80 + c / 0x40 % 0x40 - 0x80)) * 0x40
            + (0x80 + c % 0x40 - 0x80) = c := by omega
        simp only [utf8EncodeChar, if_neg h1, if_neg h2, if_pos h3, List.cons_append,
          List.nil_append, utf8Run, if_neg e1, if_neg e2, if_neg e3, if_pos e4, if_pos e5,
          if_pos e6, List.isEmpty, cond_true, cond_false, v]
      · have e1 : ¬ (0xF0 + c / 0x40000 < 0x80) := by omega
        have e2 : ¬ (0xF0 + c / 0x40000 < 0xC2) := by omega
        have e3 : ¬ (0xF0 + c / 0x40000 < 0xE0) := by omega
        have e4 : ¬ (0xF0 + c / 0x40000 < 0xF0) := by omega
        have e5 : 0xF0 + c / 0x40000 < 0xF5 := by omega
        have e6 : (if (0xF0 + c / 0x40000 : Nat) = 0xF0 then (0x90 : Nat) else 0x80)
              ≤ 0x80 + c / 0x1000 % 0x40
            ∧ 0x80 + c / 0x1000 % 0x40
              ≤ (if (0xF0 + c / 0x40000 : Nat) = 0xF4 then (0x8F : Nat) else 0xBF) := by
          refine ⟨?_, ?_⟩
          · split
            · omega
            · omega
          · split
            · omega
            · omega
        have e7 : 0x80 ≤ 0x80 + c / 0x40 % 0x40 ∧ 0x80 + c / 0x40 % 0x40 ≤ 0xBF := by omega
        have e8 : 0x80 ≤ 0x80 + c % 0x40 ∧ 0x80 + c % 0x40 ≤ 0xBF := by omega
        have v : (((0xF0 + c / 0x40000 - 0xF0) * 0x40 + (0x80 + c / 0x1000 % 0x40 - 0x80)) * 0x40
            + (0x80 + c / 0x40 % 0x40 - 0x80)) * 0x40 + (0x80 + c % 0x40 - 0x80) = c := by omega
        simp only [utf8EncodeChar, if_neg h1, if_neg h2, if_neg h3, List.cons_append,
          List.nil_append, utf8Run, if_neg e1, if_neg e2, if_neg e3, if_neg e4, if_pos e5,
          if_pos e6, if_pos e7, if_pos e8, List.isEmpty, cond_true, cond_false, v]

theorem utf8_roundtrip (t : List Nat) (h : ∀ c ∈ t, isScalar c = true) :
    utf8Decode (utf8Encode t) = some t := by
  induction t with
  | nil => rfl
  | cons c cs ih =>
    have hc : isScalar c = true := h c (List.mem_cons_self c cs)
    have hcs : ∀ x ∈ cs, isScalar x = true := fun x hx => h x (List.mem_cons_of_mem c hx)
    have ih2 : utf8Run 0 [] (cs.flatMap utf8EncodeChar) = some cs := ih hcs
    simp only [utf8Decode, utf8Encode, List.flatMap_cons, utf8Run_encodeChar c hc, ih2]
    rfl

example : pathSuffix "a.TXT".toList = ".TXT".toList := by decide

example : pathSuffix "a.tar.gz".toList = ".gz".toList := by decide

example : pathSuffix ".txt".toList = [] := by decide

example : pathSuffix "a.".toList = [] := by decide

example :
    convert_text_file_in_place toyCodec "a.TXT".toList [0x82, 0xA0]
      = (some "cp932".toList, [0xE3, 0x81, 0x82]) := by decide

example :
    convert_text_file_in_place toyCodec "a.txt".toList [0x61]
      = (none, [0x61]) := by decide

example :
    convert_text_file_in_place toyCodec "a.zip".toList [0x82, 0xA0]
      = (none, [0x82, 0xA0]) := by decide

example :
    convert_text_file_in_place toyCodec "a.txt".toList [0x82, 0x00]
      = (none, [0x82, 0x00]) := by decide

theorem isValidUtf8_encode (t : List Nat) (h : ∀ c ∈ t, isScalar c = true) :
    isValidUtf8 (utf8Encode t) = true := by
  simp only [isValidUtf8, utf8_roundtrip t h, Option.isSome_some]

theorem tryCandidates_first (codecs : Codec) (data text : List Nat) (enc : List Char) :
    ∀ cands : List (List Char), tryCandidates codecs data cands = (some text, some enc) →
      ∃ pre post, cands = pre ++ enc :: post ∧ codecs enc data = some text
        ∧ ∀ e ∈ pre, codecs e data = none := by
  intro cands
  induction cands with
  | nil => intro h; simp [tryCandidates] at h
  | cons e rest ih =>
    intro h
    unfold tryCandidates at h
    rcases hd : codecs e data with _ | t0
    · rw [hd] at h
      rcases ih h with ⟨pre, post, hsplit, henc, hpre⟩
      refine ⟨e :: pre, post, by simp [hsplit], henc, ?_⟩
      intro x hx
      rcases List.mem_cons.mp hx with rfl | hx2
      · exact hd
      · exact hpre x hx2
    · rw [hd] at h
      simp only [Prod.mk.injEq, Option.some.injEq] at h
      refine ⟨[], rest, by simp [h.2], ?_, by simp⟩
      rw [h.1] at hd
      rw [h.2] at hd
      exact hd

theorem tryCandidates_all_fail (codecs : Codec) (data : List Nat) :
    ∀ cands : List (List Char), (∀ e ∈ cands, codecs e data = none) →
      tryCandidates codecs data cands = (none, none) := by
  intro cands
  induction cands with
  | nil => intro _; rfl
  | cons e rest ih =>
    intro h
    unfold tryCandidates
    rw [h e (List.mem_cons_self e rest)]
    exact ih fun x hx => h x (List.mem_cons_of_mem e hx)

theorem tryCandidates_shape (codecs : Codec) (data : List Nat) :
    ∀ cands : List (List Char), tryCandidates codecs data cands = (none, none)
      ∨ ∃ t e, tryCandidates codecs data cands = (some t, some e) := by
  intro cands
  induction cands with
  | nil => left; rfl
  | cons e rest ih =>
    unfold tryCandidates
    rcases hd : codecs e data with _ | t0
    · exact ih
    · right; exact ⟨t0, e, rfl⟩

theorem decode_family_shape (codecs : Codec) (data : List Nat) :
    decode_shift_jis_family codecs data = (none, none)
      ∨ ∃ t e, decode_shift_jis_family codecs data = (some t, some e) := by
  unfold decode_shift_jis_family
  split
  · left; rfl
  · exact tryCandidates_shape codecs data ENCODING_CANDIDATES

theorem convert_not_text (codecs : Codec) (fname : List Char) (data : List Nat)
    (hext : ¬ (pathSuffix fname).map Char.toLower ∈ TEXT_EXTS) :
    convert_text_file_in_place codecs fname data = (none, data) := by
  simp only [convert_text_file_in_place, if_neg hext]

theorem convert_valid (codecs : Codec) (fname : List Char) (data : List Nat)
    (hv : isValidUtf8 data = true) :
    convert_text_file_in_place codecs fname data = (none, data) := by
  by_cases hext : (pathSuffix fname).map Char.toLower ∈ TEXT_EXTS
  · simp only [convert_text_file_in_place, if_pos hext, if_pos hv]
  · simp only [convert_text_file_in_place, if_neg hext]

theorem convert_decode_some (codecs : Codec) (fname : List Char) (data text : List Nat)
    (enc : List Char)
    (hext : (pathSuffix fname).map Char.toLower ∈ TEXT_EXTS)
    (hv : isValidUtf8 data = false)
    (hd : decode_shift_jis_family codecs data = (some text, some enc)) :
    convert_text_file_in_place codecs fname data = (some enc, write_text_utf8_lf text) := by
  have hv2 : ¬ isValidUtf8 data = true := by simp [hv]
  simp only [convert_text_file_in_place, if_pos hext, if_neg hv2, hd]

theorem convert_decode_none (codecs : Codec) (fname : List Char) (data : List Nat)
    (hd : decode_shift_jis_family codecs data = (none, none)) :
    convert_text_file_in_place codecs fname data = (none, data) := by
  by_cases hext : (pathSuffix fname).map Char.toLower ∈ TEXT_EXTS
  · by_cases hv : isValidUtf8 data = true
    · exact convert_valid codecs fname data hv
    · simp only [convert_text_file_in_place, if_pos hext, if_neg hv, hd]
  · exact convert_not_text codecs fname data hext

theorem convert_some_inv (codecs : Codec) (fname enc : List Char) (data out : List Nat)
    (h : convert_text_file_in_place codecs fname data = (some enc, out)) :
    (pathSuffix fname).map Char.toLower ∈ TEXT_EXTS
    ∧ isValidUtf8 data = false
    ∧ ∃ text, decode_shift_jis_family codecs data = (some text, some enc)
        ∧ out = write_text_utf8_lf text := by
  by_cases hext : (pathSuffix fname).map Char.toLower ∈ TEXT_EXTS
  · by_cases hv : isValidUtf8 data = true
    · rw [convert_valid codecs fname data hv] at h
      simp at h
    · have hv2 : isValidUtf8 data = false := by
        simp only [Bool.not_eq_true] at hv
        exact hv
      rcases decode_family_shape codecs data with hd | ⟨t, e, hd⟩
      · rw [convert_decode_none codecs fname data hd] at h
        simp at h
      · rw [convert_decode_some codecs fname data t e hext hv2 hd] at h
        simp only [Prod.mk.injEq, Option.some.injEq] at h
        exact ⟨hext, hv2, t, by rw [h.1] at hd; exact hd, h.2.symm⟩
  · rw [convert_not_text codecs fname data hext] at h
    simp at h

theorem toyCodec_scalar :
    ∀ enc : List Char, ∀ data t : List Nat, toyCodec enc data = some t →
      ∀ c ∈ t, isScalar c = true := by
  intro enc data t h c hc
  unfold toyCodec at h
  split_ifs at h with h1 h2
  · cases h
    simp only [List.mem_singleton] at hc
    subst hc
    decide

/-- C2: for a file with a recognized text/markup extension whose bytes are
not valid UTF-8, hold no null byte, and decode under one of the legacy
encodings, convert_text_file_in_place reports that encoding and rewrites the
whole file with the UTF-8 bytes of the decoded text (with "\n" newline
translation being the identity and no byte-order mark), and re-reading the
new bytes as UTF-8 reproduces the decoded text exactly. -/
theorem claim_C2 (codecs : Codec) (fname : List Char) (data text : List Nat) (enc : List Char)
    (hext : (pathSuffix fname).map Char.toLower ∈ TEXT_EXTS)
    (hutf8 : isValidUtf8 data = false)
    (hnull : is_probably_binary data = false)
    (hdec : decode_shift_jis_family codecs data = (some text, some enc))
    (hscalar : ∀ c ∈ text, isScalar c = true) :
    convert_text_file_in_place codecs fname data = (some enc, write_text_utf8_lf text)
      ∧ utf8Decode (write_text_utf8_lf text) = some text := by
  refine ⟨convert_decode_some codecs fname data text enc hext hutf8 hdec, ?_⟩
  exact utf8_roundtrip text hscalar

/-- Witness for C2 at a concrete input: a .txt file holding the cp932 bytes
of HIRAGANA LETTER A. -/
theorem claim_C2_witness :
    convert_text_file_in_place toyCodec "a.txt".toList [0x82, 0xA0]
        = (some "cp932".toList, write_text_utf8_lf [0x3042])
      ∧ utf8Decode (write_text_utf8_lf [0x3042]) = some [0x3042] :=
  claim_C2 toyCodec "a.txt".toList [0x82, 0xA0] [0x3042] "cp932".toList
    (by decide) (by decide) (by decide) (by decide) (by decide)

/-- C3: convert_text_file_in_place leaves a file that is already valid UTF-8
unchanged and reports no conversion, and a second run on the output of a
successful conversion is a no-op, provided the codec library decodes to
Unicode scalar values (which Python str guarantees). -/
theorem claim_C3 (codecs : Codec) (fname : List Char) (data : List Nat)
    (hscalar : ∀ enc : List Char, ∀ data' t : List Nat,
      codecs enc data' = some t → ∀ c ∈ t, isScalar c = true) :
    (isValidUtf8 data = true → convert_text_file_in_place codecs fname data = (none, data))
    ∧ (∀ enc : List Char, ∀ out : List Nat,
        convert_text_file_in_place codecs fname data = (some enc, out) →
        convert_text_file_in_place codecs fname out = (none, out)) := by
  refine ⟨fun hv => convert_valid codecs fname data hv, ?_⟩
  intro enc out h
  rcases convert_some_inv codecs fname enc data out h with ⟨hext, hv, text, hd, hout⟩
  have hnb : is_probably_binary data = false := by
    by_cases hb : is_probably_binary data = true
    · rw [decode_shift_jis_family, if_pos hb] at hd
      simp at hd
    · simp only [Bool.not_eq_true] at hb
      exact hb
  rw [decode_shift_jis_family, if_neg (by simp [hnb])] at hd
  rcases tryCandidates_first codecs data text enc ENCODING_CANDIDATES hd with
    ⟨pre, post, hsplit, henc, hpre⟩
  have hts : ∀ c ∈ text, isScalar c = true := hscalar enc data text henc
  have hvout : isValidUtf8 out = true := by
    rw [hout]
    exact isValidUtf8_encode text hts
  exact convert_valid codecs fname out hvout

/-- Witness for C3 at concrete inputs: an already-UTF-8 .txt file is left
unchanged, and re-running on the output of the conversion of the C2 witness
file is a no-op. -/
theorem claim_C3_witness :
    convert_text_file_in_place toyCodec "a.txt".toList [0x61] = (none, [0x61])
      ∧ convert_text_file_in_place toyCodec "a.txt".toList [0xE3, 0x81, 0x82]
        = (none, [0xE3, 0x81, 0x82]) :=
  ⟨(claim_C3 toyCodec "a.txt".toList [0x61] toyCodec_scalar).1 (by decide),
    (claim_C3 toyCodec "a.txt".toList [0x82, 0xA0] toyCodec_scalar).2 "cp932".toList
      [0xE3, 0x81, 0x82] (by decide)⟩

/-- C4: a file with a recognized extension whose bytes are not valid UTF-8
but hold a null byte is left byte-for-byte unchanged with no conversion
reported, whatever the codec library would decode. -/
theorem claim_C4 (codecs : Codec) (fname : List Char) (data : List Nat)
    (hext : (pathSuffix fname).map Char.toLower ∈ TEXT_EXTS)
    (hutf8 : isValidUtf8 data = false)
    (hnull : 0 ∈ data) :
    convert_text_file_in_place codecs fname data = (none, data) := by
  have hb : is_probably_binary data = true := by
    simp only [is_probably_binary]
    exact List.elem_eq_true_of_mem hnull
  have hd : decode_shift_jis_family codecs data = (none, none) := by
    rw [decode_shift_jis_family, if_pos hb]
  exact convert_decode_none codecs fname data hd

/-- Witness for C4 at a concrete input: a codec table that decodes anything
still does not get applied to bytes holding a null byte. -/
theorem claim_C4_witness :
    convert_text_file_in_place (fun _ _ => some []) "a.txt".toList [0xFF, 0x00]
      = (none, [0xFF, 0x00]) :=
  claim_C4 (fun _ _ => some []) "a.txt".toList [0xFF, 0x00]
    (by decide) (by decide) (by decide)

/-- C5: on bytes with no null byte, a successful detection is the first
encoding of the fixed ordered candidate list (cp932, shift_jis,
shift_jisx0213, shift_jis_2004) that decodes the bytes, every earlier
candidate failing; and when no candidate decodes, convert_text_file_in_place
leaves the file unchanged and reports no conversion. -/
theorem claim_C5 (codecs : Codec) (data text : List Nat) (enc : List Char)
    (hnull : is_probably_binary data = false) :
    ENCODING_CANDIDATES
        = ["cp932".toList, "shift_jis".toList, "shift_jisx0213".toList,
            "shift_jis_2004".toList]
    ∧ (decode_shift_jis_family codecs data = (some text, some enc) →
        ∃ pre post, ENCODING_CANDIDATES = pre ++ enc :: post
          ∧ codecs enc data = some text ∧ ∀ e ∈ pre, codecs e data = none)
    ∧ ((∀ e ∈ ENCODING_CANDIDATES, codecs e data = none) →
        ∀ fname : List Char, convert_text_file_in_place codecs fname data = (none, data)) := by
  refine ⟨rfl, ?_, ?_⟩
  · intro hd
    rw [decode_shift_jis_family, if_neg (by simp [hnull])] at hd
    exact tryCandidates_first codecs data text enc ENCODING_CANDIDATES hd
  · intro hall fname
    have hd : decode_shift_jis_family codecs data = (none, none) := by
      rw [decode_shift_jis_family, if_neg (by simp [hnull])]
      exact tryCandidates_all_fail codecs data ENCODING_CANDIDATES hall
    exact convert_decode_none codecs fname data hd

/-- Witness for C5 at concrete inputs: the toy cp932 decode succeeds first,
and bytes no candidate decodes leave the file unchanged. -/
theorem claim_C5_witness :
    (∃ pre post, ENCODING_CANDIDATES = pre ++ "cp932".toList :: post
      ∧ toyCodec "cp932".toList [0x82, 0xA0] = some [0x3042]
      ∧ ∀ e ∈ pre, toyCodec e [0x82, 0xA0] = none)
    ∧ convert_text_file_in_place toyCodec "a.txt".toList [0x90] = (none, [0x90]) :=
  ⟨(claim_C5 toyCodec [0x82, 0xA0] [0x3042] "cp932".toList (by decide)).2.1 (by decide),
    ((claim_C5 toyCodec [0x90] [] [] (by decide)).2.2 (by decide)) "a.txt".toList⟩

/-- C10: convert_text_file_in_place reports an encoding exactly when it
rewrote the file: a none report leaves the bytes exactly as read, and a some
report changes them (the new bytes are valid UTF-8 while the old were not),
provided the codec library decodes to Unicode scalar values. -/
theorem claim_C10 (codecs : Codec) (fname : List Char) (data : List Nat)
    (hscalar : ∀ enc : List Char, ∀ data' t : List Nat,
      codecs enc data' = some t → ∀ c ∈ t, isScalar c = true) :
    ((convert_text_file_in_place codecs fname data).1 = none →
      (convert_text_file_in_place codecs fname data).2 = data)
    ∧ ((convert_text_file_in_place codecs fname data).1.isSome = true →
      (convert_text_file_in_place codecs fname data).2 ≠ data) := by
  constructor
  · intro hnone
    by_cases hext : (pathSuffix fname).map Char.toLower ∈ TEXT_EXTS
    · by_cases hv : isValidUtf8 data = true
      · rw [convert_valid codecs fname data hv]
      · rcases decode_family_shape codecs data with hd | ⟨t, e, hd⟩
        · rw [convert_decode_none codecs fname data hd]
        · have hv2 : isValidUtf8 data = false := by
            simp only [Bool.not_eq_true] at hv
            exact hv
          rw [convert_decode_some codecs fname data t e hext hv2 hd] at hnone
          simp at hnone
    · rw [convert_not_text codecs fname data hext]
  · intro hsome heq
    rcases ho : (convert_text_file_in_place codecs fname data).1 with _ | enc
    · rw [ho] at hsome
      simp at hsome
    · have h : convert_text_file_in_place codecs fname data
          = (some enc, (convert_text_file_in_place codecs fname data).2) := by
        rw [← ho]
      rcases convert_some_inv codecs fname enc data _ h with ⟨hext, hv, text, hd, hout⟩
      have hnb : is_probably_binary data = false := by
        by_cases hb : is_probably_binary data = true
        · rw [decode_shift_jis_family, if_pos hb] at hd
          simp at hd
        · simp only [Bool.not_eq_true] at hb
          exact hb
      rw [decode_shift_jis_family, if_neg (by simp [hnb])] at hd
      rcases tryCandidates_first codecs data text enc ENCODING_CANDIDATES hd with
        ⟨pre, post, hsplit, henc, hpre⟩
      have hts : ∀ c ∈ text, isScalar c = true := hscalar enc data text henc
      have hvout : isValidUtf8 (convert_text_file_in_place codecs fname data).2 = true := by
        rw [hout]
        exact isValidUtf8_encode text hts
      rw [heq, hv] at hvout
      cases hvout

/-- Witness for C10 at concrete inputs: a none report on an unrecognized
extension leaves bytes unchanged, and the some report of the C2 witness
changes the bytes. -/
theorem claim_C10_witness :
    ((convert_text_file_in_place toyCodec "a.zip".toList [0x82, 0xA0]).1 = none →
      (convert_text_file_in_place toyCodec "a.zip".toList [0x82, 0xA0]).2 = [0x82, 0xA0])
    ∧ ((convert_text_file_in_place toyCodec "a.txt".toList [0x82, 0xA0]).1.isSome = true →
      (convert_text_file_in_place toyCodec "a.txt".toList [0x82, 0xA0]).2 ≠ [0x82, 0xA0]) :=
  ⟨(claim_C10 toyCodec "a.zip".toList [0x82, 0xA0] toyCodec_scalar).1,
    (claim_C10 toyCodec "a.txt".toList [0x82, 0xA0] toyCodec_scalar).2⟩

/-- C9 counterexample: on the base name a\\b&#32;. (two backslashes, then a
space and a dot) the source collapses the run of backslashes to one
underscore and strips whitespace before dots, leaving a trailing space,
while the claim's reading would give two underscores and strip the
whitespace-dot tail entirely. -/
theorem claim_C9_counterexample :
    safe_folder_name "a\\\\b .".toList = "a_b ".toList
    ∧ safe_folder_name_claimed "a\\\\b .".toList = "a__b".toList
    ∧ safe_folder_name "a\\\\b .".toList ≠ safe_folder_name_claimed "a\\\\b .".toList := by
  decide

theorem reSubRunsGo_true_dropWhile (s : List Char) :
    reSubRunsGo true s = reSubRunsGo false (s.dropWhile forbiddenChar) := by
  induction s with
  | nil => rfl
  | cons c cs ih =>
    by_cases hc : forbiddenChar c = true
    · simp only [reSubRunsGo, hc, if_true, List.dropWhile_cons, ih]
    · simp only [Bool.not_eq_true] at hc
      simp only [reSubRunsGo, hc, List.dropWhile_cons, Bool.false_eq_true, if_false]

theorem reSubRunsGo_eq_collapseRuns (n : Nat) :
    ∀ s : List Char, s.length ≤ n → reSubRunsGo false s = collapseRuns s := by
  induction n with
  | zero =>
    intro s h
    have hs : s = [] := List.eq_nil_of_length_eq_zero (Nat.le_zero.mp h)
    subst hs
    simp [reSubRunsGo, collapseRuns]
  | succ k ih =>
    intro s hlen
    match s with
    | [] => simp [reSubRunsGo, collapseRuns]
    | c :: cs =>
      rw [collapseRuns]
      by_cases hc : forbiddenChar c = true
      · have hle : (cs.dropWhile forbiddenChar).length ≤ k := by
          have h1 : (cs.dropWhile forbiddenChar).length ≤ cs.length :=
            (List.dropWhile_sublist forbiddenChar).length_le
          simp only [List.length_cons] at hlen
          omega
        simp only [reSubRunsGo, hc, if_true, Bool.false_eq_true, if_false]
        rw [reSubRunsGo_true_dropWhile cs, ih (cs.dropWhile forbiddenChar) hle]
      · simp only [Bool.not_eq_true] at hc
        have hle : cs.length ≤ k := by
          simp only [List.length_cons] at hlen
          omega
        simp only [reSubRunsGo, hc, Bool.false_eq_true, if_false]
        rw [ih cs hle]

/-- C9 as amended: the sanitized stem replaces each maximal run of the
characters \ / : * ? " < > | by a single underscore, then strips leading
and trailing whitespace, then strips leading and trailing dots from that
result, with the fixed placeholder name for an empty result. -/
theorem claim_C9 (name : List Char) :
    safe_folder_name name = safe_folder_name_amended name := by
  unfold safe_folder_name safe_folder_name_amended reSubRuns
  rw [reSubRunsGo_eq_collapseRuns name.length name le_rfl]

example :
    downloadPlan [("t1".toList, "u1".toList), ("t2".toList, "u2".toList),
        ("t3".toList, "u1".toList)]
      = [("000001.zip".toList, "u1".toList), ("000002.zip".toList, "u2".toList)] := by
  decide

theorem enumeratePlan_length (width fileId : Nat) (l : List (List Char × List Char)) :
    (enumeratePlan width fileId l).length = l.length := by
  induction l generalizing fileId with
  | nil => rfl
  | cons p rest ih =>
    rcases p with ⟨t, z⟩
    simp only [enumeratePlan, List.length_cons, ih]

theorem enumeratePlan_get (width : Nat) (l : List (List Char × List Char)) :
    ∀ fileId k, (hk : k < (enumeratePlan width fileId l).length) →
      (((enumeratePlan width fileId l).get ⟨k, hk⟩).1
        = pyFormatZeroPad width (fileId + k) ++ ".zip".toList) := by
  induction l with
  | nil =>
    intro fileId k hk
    simp [enumeratePlan] at hk
  | cons p rest ih =>
    intro fileId k hk
    rcases p with ⟨t, z⟩
    match k with
    | 0 => simp [enumeratePlan]
    | Nat.succ j =>
      have hj : j < (enumeratePlan width (fileId + 1) rest).length := by
        simp only [enumeratePlan, List.length_cons] at hk
        omega
      have := ih (fileId + 1) j hj
      simp only [enumeratePlan, List.get_cons_succ, this]
      have harith : fileId + 1 + j = fileId + (j + 1) := by omega
      rw [harith]

theorem enumeratePlan_map_snd (width fileId : Nat) (l : List (List Char × List Char)) :
    (enumeratePlan width fileId l).map Prod.snd = l.map Prod.snd := by
  induction l generalizing fileId with
  | nil => rfl
  | cons p rest ih =>
    rcases p with ⟨t, z⟩
    simp only [enumeratePlan, List.map_cons, ih]

theorem dedupByUrl_nodup (pairs : List (List Char × List Char)) :
    ∀ seen, ((dedupByUrl seen pairs).map Prod.snd).Nodup
      ∧ ∀ u ∈ (dedupByUrl seen pairs).map Prod.snd, u ∉ seen := by
  induction pairs with
  | nil =>
    intro seen
    refine ⟨?_, ?_⟩
    · simp [dedupByUrl]
    · simp [dedupByUrl]
  | cons p rest ih =>
    intro seen
    rcases p with ⟨t, z⟩
    by_cases hz : z ∈ seen
    · simpa only [dedupByUrl, if_pos hz] using ih seen
    · rcases ih (z :: seen) with ⟨hnd, hnotin⟩
      simp only [dedupByUrl, if_neg hz, List.map_cons]
      constructor
      · refine List.nodup_cons.mpr ⟨?_, hnd⟩
        intro hmem
        exact (hnotin z hmem) (List.mem_cons_self z seen)
      · intro u hu
        rcases List.mem_cons.mp hu with rfl | hu2
        · exact hz
        · intro huseen
          exact (hnotin u hu2) (List.mem_cons_of_mem z huseen)

theorem dedupByUrl_complete (t u : List Char) (pairs : List (List Char × List Char)) :
    ∀ seen, (t, u) ∈ pairs → u ∉ seen →
      u ∈ (dedupByUrl seen pairs).map Prod.snd := by
  induction pairs with
  | nil => intro seen h; simp at h
  | cons p rest ih =>
    intro seen hmem hseen
    rcases p with ⟨t0, z0⟩
    rcases List.mem_cons.mp hmem with heq | htail
    · have hz : z0 = u := congrArg Prod.snd heq.symm
      subst hz
      by_cases hz0 : z0 ∈ seen
      · exact absurd hz0 hseen
      · simp only [dedupByUrl, if_neg hz0, List.map_cons]
        exact List.mem_cons_self z0 _
    · by_cases hz0 : z0 ∈ seen
      · simp only [dedupByUrl, if_pos hz0]
        exact ih seen htail hseen
      · simp only [dedupByUrl, if_neg hz0, List.map_cons]
        by_cases hzu : u = z0
        · subst hzu
          exact List.mem_cons_self u _
        · refine List.mem_cons_of_mem z0 ?_
          refine ih (z0 :: seen) htail ?_
          intro hu
          rcases List.mem_cons.mp hu with h1 | h2
          · exact hzu h1
          · exact hseen h2

theorem count_one_of_nodup_mem (u : List Char) (l : List (List Char))
    (hnd : l.Nodup) (hm : u ∈ l) : l.count u = 1 := by
  induction l with
  | nil => simp at hm
  | cons a l ih =>
    rcases List.nodup_cons.mp hnd with ⟨hal, hl⟩
    rcases List.mem_cons.mp hm with rfl | hm2
    · have hzero : l.count u = 0 := List.count_eq_zero.mpr hal
      simp [List.count_cons, hzero]
    · have hne : (a == u) = false := by
        refine beq_eq_false_iff_ne.mpr ?_
        intro hau
        subst hau
        exact hal hm2
      simp [List.count_cons, hne, ih hl hm2]

/-- C6: the k-th entry (1-based) of the download plan over the globally
deduplicated URL list of length N is named with the decimal of k zero-padded
to width max(6, digit count of N) plus the .zip extension, and each archive
URL appearing in the collected pairs receives exactly one planned file, no
matter how many card pages contributed it. -/
theorem claim_C6 (pairs : List (List Char × List Char)) :
    (∀ k, (hk : k < (downloadPlan pairs).length) →
      ((downloadPlan pairs).get ⟨k, hk⟩).1
        = pyFormatZeroPad (max 6 (decimalDigits (dedupByUrl [] pairs).length).length)
            (k + 1) ++ ".zip".toList)
    ∧ ∀ t u, (t, u) ∈ pairs → ((downloadPlan pairs).map Prod.snd).count u = 1 := by
  constructor
  · intro k hk
    have h := enumeratePlan_get (max 6 (decimalDigits (dedupByUrl [] pairs).length).length)
      (dedupByUrl [] pairs) 1 k hk
    rw [Nat.add_comm 1 k] at h
    exact h
  · intro t u hmem
    have hsnd : (downloadPlan pairs).map Prod.snd = (dedupByUrl [] pairs).map Prod.snd :=
      enumeratePlan_map_snd _ 1 _
    rw [hsnd]
    have hnd := (dedupByUrl_nodup pairs []).1
    have hin := dedupByUrl_complete t u pairs [] hmem (by simp)
    exact count_one_of_nodup_mem u (dedupByUrl [] pairs |>.map Prod.snd) hnd hin

/-- Witness for C6 at a concrete input: three pairs from two card pages
sharing one URL give a two-entry plan with 6-digit names and a single file
for the shared URL. -/
theorem claim_C6_witness :
    ((downloadPlan [("t1".toList, "u1".toList), ("t2".toList, "u2".toList),
        ("t3".toList, "u1".toList)]).get ⟨0, by decide⟩).1
      = pyFormatZeroPad
          (max 6 (decimalDigits (dedupByUrl []
            [("t1".toList, "u1".toList), ("t2".toList, "u2".toList),
              ("t3".toList, "u1".toList)]).length).length) 1 ++ ".zip".toList
    ∧ ((downloadPlan [("t1".toList, "u1".toList), ("t2".toList, "u2".toList),
        ("t3".toList, "u1".toList)]).map Prod.snd).count "u1".toList = 1 :=
  ⟨(claim_C6 _).1 0 (by decide),
    (claim_C6 _).2 "t1".toList "u1".toList (by decide)⟩

theorem tmpName_ne (dest : List Char) : ¬ tmpName dest = dest := by
  intro h
  have hlen := congrArg List.length h
  simp [tmpName] at hlen

theorem applyOps_untouched (q : List Char) (ops : List FsOp)
    (h : ∀ op ∈ ops, (∃ p, ¬ p = q ∧ op = FsOp.createFile p)
      ∨ (∃ p c, ¬ p = q ∧ op = FsOp.appendChunk p c)) :
    ∀ fs : FileSystem, applyOps fs ops q = fs q := by
  induction ops with
  | nil => intro fs; rfl
  | cons op rest ih =>
    intro fs
    have hop := h op (List.mem_cons_self op rest)
    have hrest : ∀ x ∈ rest, (∃ p, ¬ p = q ∧ x = FsOp.createFile p)
        ∨ (∃ p c, ¬ p = q ∧ x = FsOp.appendChunk p c) :=
      fun x hx => h x (List.mem_cons_of_mem op hx)
    have hstep : applyOp fs op q = fs q := by
      rcases hop with ⟨p, hpq, rfl⟩ | ⟨p, c, hpq, rfl⟩
      · have hqp : ¬ q = p := fun hq => hpq hq.symm
        simp only [applyOp, if_neg hqp]
      · have hqp : ¬ q = p := fun hq => hpq hq.symm
        simp only [applyOp, if_neg hqp]
    calc applyOps fs (op :: rest) q = applyOps (applyOp fs op) rest q := rfl
      _ = applyOp fs op q := ih hrest (applyOp fs op)
      _ = fs q := hstep

theorem applyOps_appends_acc (p : List Char) (cs : List (List Nat)) :
    ∀ fs : FileSystem, ∀ acc : List Nat, fs p = some acc →
      applyOps fs (cs.map (FsOp.appendChunk p)) p = some (acc ++ cs.flatten) := by
  induction cs with
  | nil =>
    intro fs acc hacc
    simpa [applyOps] using hacc
  | cons c rest ih =>
    intro fs acc hacc
    have hstep : applyOp fs (FsOp.appendChunk p c) p = some (acc ++ c) := by
      simp [applyOp, hacc]
    calc applyOps fs ((c :: rest).map (FsOp.appendChunk p)) p
        = applyOps (applyOp fs (FsOp.appendChunk p c)) (rest.map (FsOp.appendChunk p)) p := rfl
      _ = some ((acc ++ c) ++ rest.flatten) := ih _ (acc ++ c) hstep
      _ = some (acc ++ (c :: rest).flatten) := by simp [List.flatten_cons, List.append_assoc]

theorem flatten_filter_nonempty (cs : List (List Nat)) :
    (cs.filter (fun c => ! c.isEmpty)).flatten = cs.flatten := by
  induction cs with
  | nil => rfl
  | cons c rest ih =>
    cases c with
    | nil => simp [List.filter_cons, ih]
    | cons x xs => simp [List.filter_cons, ih]

/-- C7: while the operations of a download are being applied, the
destination path always holds exactly its prior content (or stays absent):
every operation before the last writes only the temporary sibling name; and
once the whole trace has run, the destination holds the complete body.  So
the destination is never seen partially written. -/
theorem claim_C7 (fs : FileSystem) (dest : List Char) (chunks : List (List Nat)) (k : Nat) :
    (k < (downloadOps dest chunks).length →
      applyOps fs ((downloadOps dest chunks).take k) dest = fs dest)
    ∧ ((downloadOps dest chunks).length ≤ k →
      applyOps fs ((downloadOps dest chunks).take k) dest = some chunks.flatten) := by
  have hsplit : downloadOps dest chunks
      = (FsOp.createFile (tmpName dest)
          :: (chunks.filter (fun c => ! c.isEmpty)).map (FsOp.appendChunk (tmpName dest)))
        ++ [FsOp.renamePath (tmpName dest) dest] := by
    simp [downloadOps]
  constructor
  · intro hk
    have hklen : k ≤ (FsOp.createFile (tmpName dest)
        :: (chunks.filter (fun c => ! c.isEmpty)).map
          (FsOp.appendChunk (tmpName dest))).length := by
      rw [hsplit] at hk
      simp only [List.length_append, List.length_cons, List.length_nil] at hk ⊢
      omega
    have htake : (downloadOps dest chunks).take k
        = (FsOp.createFile (tmpName dest)
            :: (chunks.filter (fun c => ! c.isEmpty)).map
              (FsOp.appendChunk (tmpName dest))).take k := by
      rw [hsplit]
      exact List.take_append_of_le_length hklen
    rw [htake]
    refine applyOps_untouched dest _ ?_ fs
    intro op hop
    have hop2 := List.mem_of_mem_take hop
    rcases List.mem_cons.mp hop2 with rfl | hop3
    · exact Or.inl ⟨tmpName dest, tmpName_ne dest, rfl⟩
    · rcases List.mem_map.mp hop3 with ⟨c, hc, rfl⟩
      exact Or.inr ⟨tmpName dest, c, tmpName_ne dest, rfl⟩
  · intro hk
    have htake : (downloadOps dest chunks).take k = downloadOps dest chunks :=
      List.take_of_length_le hk
    rw [htake, hsplit]
    have happ : applyOps fs ((FsOp.createFile (tmpName dest)
          :: (chunks.filter (fun c => ! c.isEmpty)).map (FsOp.appendChunk (tmpName dest)))
        ++ [FsOp.renamePath (tmpName dest) dest]) dest
        = applyOp (applyOps fs (FsOp.createFile (tmpName dest)
            :: (chunks.filter (fun c => ! c.isEmpty)).map (FsOp.appendChunk (tmpName dest))))
          (FsOp.renamePath (tmpName dest) dest) dest := by
      simp [applyOps, List.foldl_append]
    rw [happ]
    have hcreate : applyOp fs (FsOp.createFile (tmpName dest)) (tmpName dest) = some [] := by
      simp [applyOp]
    have hpref : applyOps fs (FsOp.createFile (tmpName dest)
          :: (chunks.filter (fun c => ! c.isEmpty)).map (FsOp.appendChunk (tmpName dest)))
        (tmpName dest)
        = some ([] ++ (chunks.filter (fun c => ! c.isEmpty)).flatten) :=
      applyOps_appends_acc (tmpName dest) (chunks.filter (fun c => ! c.isEmpty))
        (applyOp fs (FsOp.createFile (tmpName dest))) [] hcreate
    have hrename : applyOp (applyOps fs (FsOp.createFile (tmpName dest)
          :: (chunks.filter (fun c => ! c.isEmpty)).map (FsOp.appendChunk (tmpName dest))))
        (FsOp.renamePath (tmpName dest) dest) dest
        = applyOps fs (FsOp.createFile (tmpName dest)
            :: (chunks.filter (fun c => ! c.isEmpty)).map (FsOp.appendChunk (tmpName dest)))
          (tmpName dest) := by
      simp [applyOp]
    rw [hrename, hpref, List.nil_append, flatten_filter_nonempty]

/-- Witness for C7 at a concrete input: a three-chunk body (with one empty
chunk) over an empty filesystem; after two operations the destination is
still absent, after the whole trace it holds the full body. -/
theorem claim_C7_witness :
    applyOps (fun _ => none) ((downloadOps "d.zip".toList [[1], [], [2]]).take 2)
        "d.zip".toList = (fun _ => (none : Option (List Nat))) "d.zip".toList
    ∧ applyOps (fun _ => none) ((downloadOps "d.zip".toList [[1], [], [2]]).take 9)
        "d.zip".toList = some ([[1], [], [2]] : List (List Nat)).flatten :=
  ⟨(claim_C7 (fun _ => none) "d.zip".toList [[1], [], [2]] 2).1 (by decide),
    (claim_C7 (fun _ => none) "d.zip".toList [[1], [], [2]] 9).2 (by decide)⟩

/-- C8: when the destination already exists with non-zero size,
download_file performs no network request and leaves the filesystem
untouched; hence a re-run of the whole download loop with every destination
present and non-empty performs zero network requests and changes nothing. -/
theorem claim_C8 (network : List Char → List (List Nat)) (fs : FileSystem) :
    (∀ url dest : List Char, ∀ b : List Nat, fs dest = some b → 0 < b.length →
      download_file network fs url dest = (false, fs))
    ∧ (∀ items : List (List Char × List Char),
        (∀ p ∈ items, ∃ b : List Nat, fs p.2 = some b ∧ 0 < b.length) →
        runDownloads network fs items = (0, fs)) := by
  have hone : ∀ url dest : List Char, ∀ b : List Nat, fs dest = some b → 0 < b.length →
      download_file network fs url dest = (false, fs) := by
    intro url dest b hb hlen
    simp only [download_file, hb, if_pos hlen]
  refine ⟨hone, ?_⟩
  intro items
  induction items with
  | nil => intro _; rfl
  | cons p rest ih =>
    intro hall
    rcases p with ⟨url, dest⟩
    rcases hall (url, dest) (List.mem_cons_self _ _) with ⟨b, hb, hlen⟩
    have hrest : ∀ q ∈ rest, ∃ b : List Nat, fs q.2 = some b ∧ 0 < b.length :=
      fun q hq => hall q (List.mem_cons_of_mem _ hq)
    simp only [runDownloads, hone url dest b hb hlen, ih hrest, cond_false, Nat.zero_add]

/-- Witness for C8 at a concrete input: one URL whose destination file
already holds a byte; the loop makes zero requests and returns the
filesystem unchanged. -/
theorem claim_C8_witness :
    download_file (fun _ => [[9]])
        (fun p => if p = "000001.zip".toList then some [7] else none)
        "u1".toList "000001.zip".toList
      = (false, fun p => if p = "000001.zip".toList then some [7] else none)
    ∧ runDownloads (fun _ => [[9]])
        (fun p => if p = "000001.zip".toList then some [7] else none)
        [("u1".toList, "000001.zip".toList)]
      = (0, fun p => if p = "000001.zip".toList then some [7] else none) :=
  ⟨(claim_C8 (fun _ => [[9]])
      (fun p => if p = "000001.zip".toList then some [7] else none)).1
      "u1".toList "000001.zip".toList [7] (by simp) (by decide),
    (claim_C8 (fun _ => [[9]])
      (fun p => if p = "000001.zip".toList then some [7] else none)).2
      [("u1".toList, "000001.zip".toList)]
      (by
        intro p hp
        simp only [List.mem_singleton] at hp
        subst hp
        exact ⟨[7], by simp, by decide⟩)⟩

example :
    ensure_within_dir ["out".toList, "d".toList]
      (resolveTarget ["out".toList, "d".toList] "../evil".toList) = false := by decide

example :
    ensure_within_dir ["out".toList, "d".toList]
      (resolveTarget ["out".toList, "d".toList] "sub/ok.txt".toList) = true := by decide

example :
    ensure_within_dir ["out".toList, "d".toList]
      (resolveTarget ["out".toList, "d".toList] "/abs.txt".toList) = false := by decide

example :
    ensure_within_dir ["out".toList, "d".toList]
      (resolveTarget ["out".toList, "d".toList] "a/../b.txt".toList) = true := by decide

theorem extract_ok_inv (destDir : AbsPath) (m : ZipMember) (fs fs1 : DirFileSystem)
    (p : AbsPath) (h : extract_member destDir m fs = Except.ok (fs1, p)) :
    ensure_within_dir destDir p = true ∧ ∀ q : AbsPath, ¬ q = p → fs1 q = fs q := by
  unfold extract_member at h
  by_cases hc : ensure_within_dir destDir (resolveTarget destDir m.filename) = true
  · rw [if_pos hc] at h
    by_cases hd : m.isDir = true
    · rw [if_pos hd] at h
      simp only [Except.ok.injEq, Prod.mk.injEq] at h
      rcases h with ⟨hfs, hp⟩
      subst hp
      exact ⟨hc, fun q _ => by rw [← hfs]⟩
    · rw [if_neg hd] at h
      simp only [Except.ok.injEq, Prod.mk.injEq] at h
      rcases h with ⟨hfs, hp⟩
      subst hp
      refine ⟨hc, fun q hq => ?_⟩
      rw [← hfs]
      simp only [if_neg hq]
  · rw [if_neg hc] at h
    cases h

theorem processMember_off (codecs : Codec) (destDir : AbsPath) (fs : DirFileSystem)
    (m : ZipMember) (q : AbsPath) (hq : ensure_within_dir destDir q = false) :
    processMember codecs destDir fs m q = fs q := by
  unfold processMember
  rcases he : extract_member destDir m fs with u | pr
  · rfl
  · rcases pr with ⟨fs1, p⟩
    dsimp only
    rcases extract_ok_inv destDir m fs fs1 p he with ⟨hens, hoff⟩
    have hqp : ¬ q = p := by
      intro hqp
      rw [hqp, hens] at hq
      cases hq
    by_cases hd : m.isDir = true
    · rw [if_pos hd]
      exact hoff q hqp
    · rw [if_neg hd]
      rcases hf : fs1 p with _ | d
      · exact hoff q hqp
      · show (if q = p then
            some (convert_text_file_in_place codecs (p.getLast? |>.getD []) d).2
          else fs1 q) = fs q
        rw [if_neg hqp]
        exact hoff q hqp

theorem processMember_changes (codecs : Codec) (destDir : AbsPath) (fs : DirFileSystem)
    (m : ZipMember) (q : AbsPath)
    (h : ¬ processMember codecs destDir fs m q = fs q) :
    ensure_within_dir destDir q = true := by
  by_cases he : ensure_within_dir destDir q = true
  · exact he
  · simp only [Bool.not_eq_true] at he
    exact absurd (processMember_off codecs destDir fs m q he) h

theorem processMembers_changes (codecs : Codec) (destDir : AbsPath) :
    ∀ members : List ZipMember, ∀ fs : DirFileSystem, ∀ q : AbsPath,
      ¬ processMembers codecs destDir fs members q = fs q →
      ensure_within_dir destDir q = true := by
  intro members
  induction members with
  | nil => intro fs q h; exact absurd rfl h
  | cons m ms ih =>
    intro fs q h
    by_cases h1 : processMember codecs destDir fs m q = fs q
    · by_cases h2 : processMembers codecs destDir (processMember codecs destDir fs m) ms q
          = processMember codecs destDir fs m q
      · exfalso
        apply h
        calc processMembers codecs destDir fs (m :: ms) q
            = processMembers codecs destDir (processMember codecs destDir fs m) ms q := rfl
          _ = processMember codecs destDir fs m q := h2
          _ = fs q := h1
      · exact ih (processMember codecs destDir fs m) q h2
    · exact processMember_changes codecs destDir fs m q h1

theorem extract_member_reject (destDir : AbsPath) (m : ZipMember) (fs : DirFileSystem)
    (h : ensure_within_dir destDir (resolveTarget destDir m.filename) = false) :
    extract_member destDir m fs = Except.error () := by
  unfold extract_member
  rw [if_neg (by simp [h])]

theorem processMember_error (codecs : Codec) (destDir : AbsPath) (fs : DirFileSystem)
    (m : ZipMember) (h : extract_member destDir m fs = Except.error ()) :
    processMember codecs destDir fs m = fs := by
  unfold processMember
  rw [h]

/-- C1: over any archive member list, every path whose contents differ after
the process_zip loop passed the ensure_within_dir containment check against
the destination directory (so nothing is ever written outside it); and a
member whose resolved target fails the check makes extract_member raise the
path-safety error, writes nothing, and the loop continues with the
remaining members unchanged. -/
theorem claim_C1 (codecs : Codec) (destDir : AbsPath) (fs : DirFileSystem)
    (members : List ZipMember) :
    (∀ p : AbsPath, ¬ processMembers codecs destDir fs members p = fs p →
      ensure_within_dir destDir p = true)
    ∧ (∀ m : ZipMember,
        ensure_within_dir destDir (resolveTarget destDir m.filename) = false →
        extract_member destDir m fs = Except.error ()
          ∧ ∀ ms : List ZipMember,
            processMembers codecs destDir fs (m :: ms)
              = processMembers codecs destDir fs ms) := by
  constructor
  · intro p h
    exact processMembers_changes codecs destDir members fs p h
  · intro m hm
    have herr : extract_member destDir m fs = Except.error () :=
      extract_member_reject destDir m fs hm
    refine ⟨herr, fun ms => ?_⟩
    calc processMembers codecs destDir fs (m :: ms)
        = processMembers codecs destDir (processMember codecs destDir fs m) ms := rfl
      _ = processMembers codecs destDir fs ms := by
        rw [processMember_error codecs destDir fs m herr]

/-- Witness for C1 at a concrete input: a traversal member ../evil under
out/d is rejected with the path-safety error and skipping it leaves the
loop to process the sibling member alone. -/
theorem claim_C1_witness :
    extract_member ["out".toList, "d".toList]
        (ZipMember.mk "../evil".toList false [1]) (fun _ => none)
      = Except.error ()
    ∧ processMembers toyCodec ["out".toList, "d".toList] (fun _ => none)
        [ZipMember.mk "../evil".toList false [1], ZipMember.mk "ok.txt".toList false [0x61]]
      = processMembers toyCodec ["out".toList, "d".toList] (fun _ => none)
        [ZipMember.mk "ok.txt".toList false [0x61]] :=
  ⟨((claim_C1 toyCodec ["out".toList, "d".toList] (fun _ => none)
      [ZipMember.mk "../evil".toList false [1], ZipMember.mk "ok.txt".toList false [0x61]]).2
      (ZipMember.mk "../evil".toList false [1]) (by decide)).1,
    ((claim_C1 toyCodec ["out".toList, "d".toList] (fun _ => none)
      [ZipMember.mk "../evil".toList false [1], ZipMember.mk "ok.txt".toList false [0x61]]).2
      (ZipMember.mk "../evil".toList false [1]) (by decide)).2
      [ZipMember.mk "ok.txt".toList false [0x61]]⟩

end Aozora
